import Mathlib

/-!
Shallow embedding of `src/show-order/mvm_showcase_order.py`.

The Python program defines a `SetlistSolver` class that enumerates orderings
of teams ("setlists") in which no two consecutive teams share a member.
Python `int` bitmasks become `Nat` with `Nat` bitwise operations (Python
integers are arbitrary precision, so no modular truncation is involved);
Python dicts with unique keys become association lists looked up by first
key occurrence; Python generators become eagerly computed lists holding the
full finite enumeration, in emission order; `raise ValueError` becomes
`Except.error`.  Python's `sorted` is a stable ascending sort, embedded as
`List.insertionSort` with a `≤` comparison on the sort key, which is also
stable and ascending.
-/

namespace Mvm

instance {ε α : Type} [DecidableEq ε] [DecidableEq α] : DecidableEq (Except ε α) := fun x y =>
  match x, y with
  | .ok a, .ok b =>
    if h : a = b then isTrue (by rw [h]) else isFalse (fun hc => h (Except.ok.inj hc))
  | .error a, .error b =>
    if h : a = b then isTrue (by rw [h]) else isFalse (fun hc => h (Except.error.inj hc))
  | .ok _, .error _ => isFalse (fun hc => Except.noConfusion hc)
  | .error _, .ok _ => isFalse (fun hc => Except.noConfusion hc)

/-- Count of set bits of a natural number, written with explicit fuel so it
reduces inside the kernel; mirrors the Python expression
`bin(x).count("1")` applied to a bitmask. -/
def popcountAux : Nat → Nat → Nat
  | 0, _ => 0
  | fuel + 1, x => if x = 0 then 0 else x % 2 + popcountAux fuel (x / 2)

/-- Number of set bits of `x` (`bin(x).count("1")` in the source). -/
def popcount (x : Nat) : Nat := popcountAux x x

/-- Ascending list of set-bit positions of a mask, written with explicit
fuel; mirrors the Python lowest-set-bit extraction loop
`while x: lsb = x & -x; candidates.append(lsb.bit_length() - 1); x ^= lsb`,
which also produces bit positions in ascending order. -/
def bitIndicesAux : Nat → Nat → Nat → List Nat
  | 0, _, _ => []
  | fuel + 1, x, pos =>
    if x = 0 then []
    else if x % 2 = 1 then pos :: bitIndicesAux fuel (x / 2) (pos + 1)
    else bitIndicesAux fuel (x / 2) (pos + 1)

/-- Ascending set-bit positions of `x`. -/
def bitIndices (x : Nat) : List Nat := bitIndicesAux x x 0

/-- Disjointness of member collections: `true` iff no element of `xs`
occurs in `ys`; mirrors Python `set.isdisjoint`. -/
def disjointB (xs ys : List String) : Bool := xs.all (fun m => !(ys.contains m))

/-- Python `str.strip()`: removes leading and trailing whitespace, written
over the character list so it reduces in the kernel. -/
def stripStr (s : String) : String :=
  String.mk (((s.data.dropWhile Char.isWhitespace).reverse.dropWhile Char.isWhitespace).reverse)

/-- Sanitised member collection of one team: each member name trimmed of
surrounding whitespace, duplicates collapsed; mirrors the Python set
comprehension building `{str(m).strip() for m in members}`. -/
def trimMembers (ms : List String) : List String := (ms.map stripStr).dedup

/-- Arbitrary-precision `a AND NOT b` on bit representations: Python
`a & ~b` on (non-negative) ints.  Written with accelerated `Nat` xor/and
so it reduces in the kernel; bit `i` is set iff it is set in `a` and clear
in `b`. -/
def andNot (a b : Nat) : Nat := a ^^^ (a &&& b)

/-- Dict lookup `teams_to_members[t]` on the association-list model; keys
are unique in a Python dict, so the first hit is the value. -/
def lookupMembers (ttm : List (String × List String)) (t : String) : List String :=
  ((ttm.find? (fun p => p.1 == t)).map Prod.snd).getD []

/-- Row `i` of the adjacency bitmask table: bit `j` is set iff `i ≠ j` and
the member sets of teams `i` and `j` are disjoint; the inner loop of
`_build_compatibility_graph`. -/
def rowMask (ttm : List (String × List String)) (teams : List String) (i : Nat) : Nat :=
  (List.range teams.length).foldl
    (fun mask j =>
      if i = j then mask
      else if disjointB (lookupMembers ttm (teams.getD j ""))
             (lookupMembers ttm (teams.getD i "")) then
        mask ||| (1 <<< j)
      else mask)
    0

/-- `_build_compatibility_graph`: the list of adjacency bitmasks, one row
per team. -/
def buildCompatibilityGraph (ttm : List (String × List String)) : List Nat :=
  let teams := ttm.map Prod.fst
  (List.range teams.length).map (fun i => rowMask ttm teams i)

/-- State of a constructed `SetlistSolver`: the fields assigned by
`__init__`.  `team_to_idx` is not stored: with unique keys it is
`List.indexOf` into `teams`. -/
structure SetlistSolver where
  teamsToMembers : List (String × List String)
  teams : List String
  teamCount : Nat
  adjacencyMasks : List Nat
deriving DecidableEq, Repr

/-- `SetlistSolver.__init__`: rejects an empty mapping, sanitises the
member collections, records the team list and builds the adjacency
bitmasks. -/
def mkSolver (input : List (String × List String)) : Except String SetlistSolver :=
  if input.isEmpty then Except.error "Input teams_to_members cannot be empty."
  else
    let ttm := input.map (fun p => (p.1, trimMembers p.2))
    let teams := ttm.map Prod.fst
    Except.ok
      { teamsToMembers := ttm
        teams := teams
        teamCount := teams.length
        adjacencyMasks := buildCompatibilityGraph ttm }

/-- Python truthiness of an optional string argument: `None` and the empty
string are both falsy, every other string is truthy. -/
def isTruthy : Option String → Bool
  | none => false
  | some t => t != ""

/-- The degree-ranking heuristic of `generate_valid_setlists`:
`sorted(range(n), key=popcount of mask)` — indices in ascending order of
degree, stable on ties. -/
def rankedIndices (s : SetlistSolver) : List Nat :=
  List.insertionSort
    (fun i j => popcount (s.adjacencyMasks.getD i 0) ≤ popcount (s.adjacencyMasks.getD j 0))
    (List.range s.teamCount)

/-- Remap the bit positions of one adjacency mask from original indices to
ranks; the inner loop of the reindexing step.  `ranked.indexOf j` is the
dict `idx_to_rank[j]` built from the enumeration of `ranked`. -/
def remapMask (ranked : List Nat) (n : Nat) (mask : Nat) : Nat :=
  (List.range n).foldl
    (fun m j => if mask.testBit j then m ||| (1 <<< ranked.indexOf j) else m)
    0

/-- The reindexed adjacency array `adj_r`: starts as `n` zeros and assigns
slot `idx_to_rank[i]` the remapped mask of original row `i`. -/
def adjRanked (s : SetlistSolver) (ranked : List Nat) : List Nat :=
  (List.range s.teamCount).foldl
    (fun acc i =>
      acc.set (ranked.indexOf i) (remapMask ranked s.teamCount (s.adjacencyMasks.getD i 0)))
    (List.replicate s.teamCount 0)

/-- The reindexed team-name array `teams_r = [self.teams[i] for i in ranked_indices]`. -/
def teamsRanked (s : SetlistSolver) (ranked : List Nat) : List String :=
  ranked.map (fun i => s.teams.getD i "")

/-- The allowed-candidate bitmask at a positive depth of
`_backtrack_with_end`: the source starts from
`allowed = adj_r[last] & ~used_mask`, then removes the reserved end bit
when `L < n - 1`, and at `L == n - 1` collapses `allowed` to the end bit if
the end bit is set in the (unreserved) base mask, or to zero otherwise
(the source returns from the dead branch, which yields the same candidate
set).  The sequential reassignments of the source are flattened into the
three mutually exclusive depth cases; at `L == n - 1` the reservation step
has not fired, so the bit test reads the base mask, exactly as in the
source. -/
def allowedMask (adj_r : List Nat) (n : Nat) (end_node_r : Option Nat)
    (path : List Nat) (used : Nat) : Nat :=
  match end_node_r with
  | none => andNot (adj_r.getD (path.getLast?.getD 0) 0) used
  | some e =>
    if path.length = n - 1 then
      (if (andNot (adj_r.getD (path.getLast?.getD 0) 0) used).testBit e then 1 <<< e else 0)
    else if path.length < n - 1 then
      andNot (andNot (adj_r.getD (path.getLast?.getD 0) 0) used) (1 <<< e)
    else
      andNot (adj_r.getD (path.getLast?.getD 0) 0) used

/-- Candidate nodes tried at the current depth of `_backtrack_with_end`, in
trial order: at depth 0 either the fixed start node or all `n` nodes; at
deeper levels the set bits of the allowed mask in ascending order, sorted
ascending by look-ahead degree (stable on ties, matching Python's stable
`sort`). -/
def candidatesAt (adj_r : List Nat) (n : Nat) (start_node_r end_node_r : Option Nat)
    (path : List Nat) (used : Nat) : List Nat :=
  if path.length = 0 then
    match start_node_r with
    | some st => [st]
    | none => List.range n
  else
    List.insertionSort
      (fun c1 c2 =>
        popcount (andNot (adj_r.getD c1 0) used) ≤ popcount (andNot (adj_r.getD c2 0) used))
      (bitIndices (allowedMask adj_r n end_node_r path used))

/-- The success check at depth `n` of `_backtrack_with_end.solve`: the
complete path is emitted iff there is no end constraint or the last chosen
node is the required end node. -/
def finishCheck (end_node_r : Option Nat) (path : List Nat) : List (List Nat) :=
  match end_node_r with
  | none => [path]
  | some e => if path.getLast? = some e then [path] else []

/-- The recursive generator `solve` of `_backtrack_with_end`, with explicit
state passing: `path` and `used` are the shared mutable state, fully
restored between siblings in the source and hence plain arguments here.
`fuel` bounds the remaining depth; the entry point passes `n`, and each
level consumes one unit while `path` grows by one, so fuel never runs out
before `path.length = n`.  The `used.testBit c` guard mirrors the
`continue` in the candidate loop. -/
def solveAux (adj_r : List Nat) (n : Nat) (start_node_r end_node_r : Option Nat) :
    Nat → List Nat → Nat → List (List Nat)
  | 0, path, _ => if path.length = n then finishCheck end_node_r path else []
  | fuel + 1, path, used =>
    if path.length = n then finishCheck end_node_r path
    else
      (candidatesAt adj_r n start_node_r end_node_r path used).flatMap
        (fun c =>
          if used.testBit c then []
          else
            solveAux adj_r n start_node_r end_node_r fuel (path ++ [c]) (used ||| (1 <<< c)))

/-- `_backtrack_with_end`: runs `solve` from the empty path and empty used
set, producing every emitted index path in emission order. -/
def backtrackWithEnd (s : SetlistSolver) (adj_r : List Nat)
    (start_node_r end_node_r : Option Nat) : List (List Nat) :=
  solveAux adj_r s.teamCount start_node_r end_node_r s.teamCount [] 0

/-- The pair loop of `_sequence_is_valid`: scans consecutive pairs and
stops at the first pair whose member sets intersect, reporting the pair and
the overlap. -/
def sequenceIsValidAux (ttm : List (String × List String)) :
    List (String × String) → Bool × Option (String × String × List String)
  | [] => (true, none)
  | (a, b) :: rest =>
    let overlap := (lookupMembers ttm a).filter (fun m => (lookupMembers ttm b).contains m)
    if overlap.isEmpty then sequenceIsValidAux ttm rest
    else (false, some (a, b, overlap))

/-- `_sequence_is_valid`: `(true, none)` iff no consecutive pair of the
sequence shares a member; `zip seq seq.tail` is Python
`zip(seq, seq[1:])`. -/
def sequenceIsValid (s : SetlistSolver) (seq : List String) :
    Bool × Option (String × String × List String) :=
  sequenceIsValidAux s.teamsToMembers (seq.zip seq.tail)

/-- The cap test at the top of the emission loop:
`limit is not None and produced >= limit`. -/
def limitReached (limit : Option Nat) (produced : Nat) : Bool :=
  match limit with
  | some k => decide (k ≤ produced)
  | none => false

/-- The emission loop of `generate_valid_setlists`: walks the index paths
in order, stops when the cap is reached, translates indices to team names,
and keeps only sequences passing the strict validation, counting only the
kept ones against the cap. -/
def emitLoop (s : SetlistSolver) (teams_r : List String) :
    List (List Nat) → Option Nat → Nat → List (List String)
  | [], _, _ => []
  | pIdx :: rest, limit, produced =>
    if limitReached limit produced then []
    else
      let seq := pIdx.map (fun i => teams_r.getD i "")
      if (sequenceIsValid s seq).1 then seq :: emitLoop s teams_r rest limit (produced + 1)
      else emitLoop s teams_r rest limit produced

/-- `generate_valid_setlists`: validates the start/end names (only when
truthy, matching `if start_team and start_team not in self.team_to_idx`),
builds the degree ranking and reindexed graph, translates the truthy
endpoint names to ranked indices, and runs the emission loop over the
backtracking search.  The result is the full emitted sequence (or the
raised error). -/
def generate_valid_setlists (s : SetlistSolver) (limit : Option Nat)
    (start_team end_team : Option String) : Except String (List (List String)) :=
  if isTruthy start_team && !(s.teams.contains (start_team.getD "")) then
    Except.error "Start team not found."
  else if isTruthy end_team && !(s.teams.contains (end_team.getD "")) then
    Except.error "End team not found."
  else
    let ranked := rankedIndices s
    let adj_r := adjRanked s ranked
    let teams_r := teamsRanked s ranked
    let start_node_r :=
      if isTruthy start_team then some (ranked.indexOf (s.teams.indexOf (start_team.getD "")))
      else none
    let end_node_r :=
      if isTruthy end_team then some (ranked.indexOf (s.teams.indexOf (end_team.getD "")))
      else none
    Except.ok (emitLoop s teams_r (backtrackWithEnd s adj_r start_node_r end_node_r) limit 0)

/-- The three-team example mapping of the spec: `a:{x}`, `b:{y}`, `c:{x}`. -/
def exInput : List (String × List String) := [("a", ["x"]), ("b", ["y"]), ("c", ["x"])]

/-- The solver state `mkSolver` produces on `exInput`. -/
def exSolver : SetlistSolver :=
  { teamsToMembers := [("a", ["x"]), ("b", ["y"]), ("c", ["x"])]
    teams := ["a", "b", "c"]
    teamCount := 3
    adjacencyMasks := [2, 5, 2] }

/-- A two-team mapping whose first team is named by the empty string; dict
keys may be any string, including the empty one. -/
def cexInput : List (String × List String) := [("", ["x"]), ("b", ["y"])]

/-- The solver state `mkSolver` produces on `cexInput`. -/
def cexSolver : SetlistSolver :=
  { teamsToMembers := [("", ["x"]), ("b", ["y"])]
    teams := ["", "b"]
    teamCount := 2
    adjacencyMasks := [2, 1] }

/-- A one-team mapping used to probe the unknown-endpoint check. -/
def oneInput : List (String × List String) := [("a", ["x"])]

/-- The solver state `mkSolver` produces on `oneInput`. -/
def oneSolver : SetlistSolver :=
  { teamsToMembers := [("a", ["x"])]
    teams := ["a"]
    teamCount := 1
    adjacencyMasks := [0] }

/-! ### Bit-level helper lemmas -/

theorem andNot_testBit (a b i : Nat) :
    (andNot a b).testBit i = ((a.testBit i) && !(b.testBit i)) := by
  unfold andNot
  rw [Nat.testBit_xor, Nat.testBit_land]
  cases a.testBit i <;> cases b.testBit i <;> rfl

theorem testBit_one_shiftLeft (e i : Nat) : (1 <<< e).testBit i = decide (e = i) := by
  rw [Nat.one_shiftLeft, Nat.testBit_two_pow]

theorem bitIndicesAux_mem (fuel : Nat) : ∀ (x pos c : Nat), x < 2 ^ fuel →
    (c ∈ bitIndicesAux fuel x pos ↔ ∃ d, x.testBit d = true ∧ c = pos + d) := by
  induction fuel with
  | zero =>
    intro x pos c hx
    have hx0 : x = 0 := by omega
    subst hx0
    simp [bitIndicesAux]
  | succ fuel ih =>
    intro x pos c hx
    have hdiv : x / 2 < 2 ^ fuel := by
      rw [Nat.div_lt_iff_lt_mul (by omega)]
      calc x < 2 ^ (fuel + 1) := hx
        _ = 2 ^ fuel * 2 := by rw [pow_succ]
    by_cases hx0 : x = 0
    · subst hx0; simp [bitIndicesAux]
    · by_cases hm : x % 2 = 1
      · simp only [bitIndicesAux, if_neg hx0, if_pos hm]
        constructor
        · intro h
          rcases List.mem_cons.mp h with h | h
          · exact ⟨0, by simp [Nat.testBit_zero, hm], by omega⟩
          · rcases (ih _ _ _ hdiv).mp h with ⟨d, hd, hc⟩
            exact ⟨d + 1, by rw [Nat.testBit_add_one]; exact hd, by omega⟩
        · rintro ⟨d, hd, hc⟩
          cases d with
          | zero => exact List.mem_cons.mpr (Or.inl (by omega))
          | succ e =>
            refine List.mem_cons.mpr (Or.inr ((ih _ _ _ hdiv).mpr ⟨e, ?_, by omega⟩))
            rw [← Nat.testBit_add_one]; exact hd
      · simp only [bitIndicesAux, if_neg hx0, if_neg hm]
        rw [ih _ _ _ hdiv]
        constructor
        · rintro ⟨d, hd, hc⟩
          exact ⟨d + 1, by rw [Nat.testBit_add_one]; exact hd, by omega⟩
        · rintro ⟨d, hd, hc⟩
          cases d with
          | zero => rw [Nat.testBit_zero] at hd; simp [hm] at hd
          | succ e => exact ⟨e, by rw [← Nat.testBit_add_one]; exact hd, by omega⟩

theorem mem_bitIndices (x c : Nat) : c ∈ bitIndices x ↔ x.testBit c = true := by
  unfold bitIndices
  rw [bitIndicesAux_mem x x 0 c (Nat.lt_two_pow x)]
  constructor
  · rintro ⟨d, hd, hc⟩
    have : c = d := by omega
    rw [this]; exact hd
  · intro h; exact ⟨c, h, by omega⟩

theorem bitIndicesAux_two_pow : ∀ (fuel e pos : Nat), e < fuel →
    bitIndicesAux fuel (2 ^ e) pos = [pos + e] := by
  intro fuel
  induction fuel with
  | zero => intro e pos h; omega
  | succ fuel ih =>
    intro e pos h
    cases e with
    | zero =>
      have h1 : (2 : Nat) ^ 0 = 1 := by norm_num
      simp only [bitIndicesAux, h1]
      norm_num
      cases fuel <;> simp [bitIndicesAux]
    | succ e =>
      have h1 : (2 : Nat) ^ (e + 1) ≠ 0 := by positivity
      have h2 : (2 : Nat) ^ (e + 1) % 2 = 0 := by
        rw [pow_succ]; exact Nat.mul_mod_left _ _
      have h3 : (2 : Nat) ^ (e + 1) / 2 = 2 ^ e := by
        rw [pow_succ]; exact Nat.mul_div_cancel _ (by omega)
      simp only [bitIndicesAux, if_neg h1, if_neg (by omega : ¬ ((2:Nat) ^ (e+1) % 2 = 1))]
      rw [h3, ih e (pos + 1) (by omega)]
      congr 1
      omega

theorem bitIndices_one_shiftLeft (e : Nat) : bitIndices (1 <<< e) = [e] := by
  unfold bitIndices
  rw [Nat.one_shiftLeft, bitIndicesAux_two_pow (2 ^ e) e 0 (Nat.lt_two_pow e)]
  simp

theorem bitIndices_zero : bitIndices 0 = [] := rfl

/-! ### List helper lemmas -/

theorem getD_indexOf {α : Type} [DecidableEq α] (l : List α) (a d : α) (h : a ∈ l) :
    l.getD (l.indexOf a) d = a := by
  rw [List.getD_eq_getElem l d (List.indexOf_lt_length.mpr h)]
  exact List.getElem_indexOf _

theorem map_getD_range {α : Type} (l : List α) (d : α) :
    (List.range l.length).map (fun i => l.getD i d) = l := by
  induction l with
  | nil => simp
  | cons a t ih =>
    rw [List.length_cons, List.range_succ_eq_map, List.map_cons, List.map_map]
    have h1 : (a :: t).getD 0 d = a := rfl
    have h2 : ((fun i => (a :: t).getD i d) ∘ Nat.succ) = (fun i => t.getD i d) := by
      funext i; rfl
    rw [h1, h2, ih]

theorem getD_prop {α : Type} (P : α → Prop) (l : List α) (d : α) (i : Nat)
    (hl : ∀ x ∈ l, P x) (hd : P d) : P (l.getD i d) := by
  by_cases h : i < l.length
  · rw [List.getD_eq_getElem l d h]
    exact hl _ (List.getElem_mem h)
  · rw [List.getD_eq_default l d (by omega)]
    exact hd

theorem foldl_mask_testBit (g : Nat → Bool) (tgt : Nat → Nat) :
    ∀ (js : List Nat) (acc c : Nat),
    ((js.foldl (fun m j => if g j then m ||| (1 <<< tgt j) else m) acc).testBit c)
      = (acc.testBit c || js.any (fun j => g j && tgt j == c)) := by
  intro js
  induction js with
  | nil => intro acc c; simp
  | cons j t ih =>
    intro acc c
    rw [List.foldl_cons, ih, List.any_cons]
    by_cases hg : g j
    · rw [if_pos hg, Nat.testBit_lor, testBit_one_shiftLeft]
      by_cases hc : tgt j = c
      · subst hc; simp [hg]
      · have hb : (tgt j == c) = false := beq_eq_false_iff_ne.mpr hc
        simp [hg, hc, hb]
    · rw [if_neg hg]
      simp [hg]

/-! ### Graph construction lemmas -/

theorem disjointB_iff (xs ys : List String) :
    disjointB xs ys = true ↔ ∀ m ∈ xs, ¬ (m ∈ ys) := by
  unfold disjointB
  simp [List.all_eq_true, List.contains, List.elem_iff]

theorem disjointB_comm (xs ys : List String) : disjointB xs ys = disjointB ys xs := by
  rw [Bool.eq_iff_iff, disjointB_iff, disjointB_iff]
  constructor
  · intro h m hm hmx
    exact h m hmx hm
  · intro h m hm hmy
    exact h m hmy hm

theorem rowMask_testBit (ttm : List (String × List String)) (teams : List String) (i c : Nat) :
    (rowMask ttm teams i).testBit c = true ↔
      (c < teams.length ∧ i ≠ c ∧
        disjointB (lookupMembers ttm (teams.getD c ""))
          (lookupMembers ttm (teams.getD i "")) = true) := by
  unfold rowMask
  have hfun :
      (fun (mask j : Nat) =>
        if i = j then mask
        else
          if disjointB (lookupMembers ttm (teams.getD j ""))
              (lookupMembers ttm (teams.getD i "")) then
            mask ||| (1 <<< j)
          else mask)
      = (fun (mask j : Nat) =>
          if ((!(decide (i = j))) &&
              disjointB (lookupMembers ttm (teams.getD j ""))
                (lookupMembers ttm (teams.getD i ""))) then
            mask ||| (1 <<< j)
          else mask) := by
    funext mask j
    by_cases h : i = j
    · simp [h]
    · simp [h]
  rw [hfun,
    foldl_mask_testBit
      (fun j => (!(decide (i = j))) &&
        disjointB (lookupMembers ttm (teams.getD j "")) (lookupMembers ttm (teams.getD i "")))
      (fun j => j) (List.range teams.length) 0 c]
  simp only [Nat.zero_testBit, Bool.false_or, List.any_eq_true, List.mem_range]
  constructor
  · rintro ⟨j, hj, hcond⟩
    simp only [Bool.and_eq_true] at hcond
    obtain ⟨hgj, hjc⟩ := hcond
    have hjc' : j = c := by simpa using hjc
    subst hjc'
    obtain ⟨hne, hdis⟩ := hgj
    refine ⟨hj, ?_, hdis⟩
    intro hic
    simp [hic] at hne
  · rintro ⟨hc, hne, hdis⟩
    refine ⟨c, hc, ?_⟩
    rw [hdis]
    simp [hne]

theorem buildCompatibilityGraph_getD (ttm : List (String × List String)) (i : Nat)
    (h : i < (ttm.map Prod.fst).length) :
    (buildCompatibilityGraph ttm).getD i 0 = rowMask ttm (ttm.map Prod.fst) i := by
  unfold buildCompatibilityGraph
  rw [List.getD_eq_getElem _ _ (by simpa using h)]
  simp

theorem mkSolver_ok {input : List (String × List String)} {s : SetlistSolver}
    (h : mkSolver input = Except.ok s) :
    s.teamsToMembers = input.map (fun p => (p.1, trimMembers p.2)) ∧
    s.teams = input.map Prod.fst ∧
    s.teamCount = s.teams.length ∧
    s.adjacencyMasks = buildCompatibilityGraph s.teamsToMembers ∧
    input ≠ [] := by
  unfold mkSolver at h
  by_cases he : input.isEmpty
  · rw [if_pos he] at h
    exact absurd h (by simp)
  · rw [if_neg he] at h
    injection h with h
    subst h
    refine ⟨rfl, ?_, rfl, rfl, by simpa [List.isEmpty_iff] using he⟩
    rw [List.map_map]
    rfl

/-! ### Ranking and reindexing lemmas -/

theorem rankedIndices_perm (s : SetlistSolver) :
    (rankedIndices s).Perm (List.range s.teamCount) :=
  List.perm_insertionSort _ _

theorem rankedIndices_length (s : SetlistSolver) :
    (rankedIndices s).length = s.teamCount := by
  rw [(rankedIndices_perm s).length_eq, List.length_range]

theorem mem_rankedIndices (s : SetlistSolver) (i : Nat) :
    i ∈ rankedIndices s ↔ i < s.teamCount := by
  rw [(rankedIndices_perm s).mem_iff, List.mem_range]

theorem rankedIndices_indexOf_lt (s : SetlistSolver) (i : Nat) (h : i < s.teamCount) :
    (rankedIndices s).indexOf i < s.teamCount := by
  have := List.indexOf_lt_length.mpr ((mem_rankedIndices s i).mpr h)
  rwa [rankedIndices_length s] at this

theorem remapMask_testBit_lt (ranked : List Nat) (n : Nat) (mask : Nat)
    (hr : ∀ j, j < n → ranked.indexOf j < n) :
    ∀ c, (remapMask ranked n mask).testBit c = true → c < n := by
  intro c h
  unfold remapMask at h
  rw [foldl_mask_testBit (fun j => mask.testBit j) (fun j => ranked.indexOf j)
    (List.range n) 0 c] at h
  simp only [Nat.zero_testBit, Bool.false_or, List.any_eq_true, List.mem_range,
    Bool.and_eq_true] at h
  obtain ⟨j, hj, -, heq⟩ := h
  have hc : ranked.indexOf j = c := by simpa using heq
  rw [← hc]
  exact hr j hj

theorem foldl_set_forall {α : Type} (P : α → Prop) (f : Nat → α) (pos : Nat → Nat) :
    ∀ (js : List Nat) (acc : List α), (∀ x ∈ acc, P x) → (∀ j ∈ js, P (f j)) →
    ∀ x ∈ js.foldl (fun acc j => acc.set (pos j) (f j)) acc, P x := by
  intro js
  induction js with
  | nil => intro acc hacc _ x hx; exact hacc x hx
  | cons j t ih =>
    intro acc hacc hjs x hx
    rw [List.foldl_cons] at hx
    refine ih _ ?_ (fun j' hj' => hjs j' (List.mem_cons_of_mem _ hj')) x hx
    intro y hy
    rcases List.mem_or_eq_of_mem_set hy with hy | hy
    · exact hacc y hy
    · rw [hy]; exact hjs j (List.mem_cons_self _ _)

theorem adjRanked_testBit_lt (s : SetlistSolver) (ranked : List Nat)
    (hr : ∀ j, j < s.teamCount → ranked.indexOf j < s.teamCount) :
    ∀ i c, ((adjRanked s ranked).getD i 0).testBit c = true → c < s.teamCount := by
  intro i c
  have hP : ∀ x ∈ adjRanked s ranked, ∀ d, x.testBit d = true → d < s.teamCount := by
    unfold adjRanked
    refine foldl_set_forall (fun x => ∀ d, x.testBit d = true → d < s.teamCount)
      (fun i => remapMask ranked s.teamCount (s.adjacencyMasks.getD i 0))
      (fun i => ranked.indexOf i) (List.range s.teamCount) _ ?_ ?_
    · intro x hx
      rw [List.eq_of_mem_replicate hx]
      intro d hd
      rw [Nat.zero_testBit] at hd
      exact absurd hd (by simp)
    · intro j _
      exact remapMask_testBit_lt ranked s.teamCount _ hr
  intro h
  refine getD_prop (fun x => ∀ d, x.testBit d = true → d < s.teamCount)
    (adjRanked s ranked) 0 i hP ?_ c h
  intro d hd
  rw [Nat.zero_testBit] at hd
  exact absurd hd (by simp)

theorem teamsRanked_getD_indexOf (s : SetlistSolver) (ranked : List Nat) (origIdx : Nat)
    (h : origIdx ∈ ranked) :
    (teamsRanked s ranked).getD (ranked.indexOf origIdx) "" = s.teams.getD origIdx "" := by
  unfold teamsRanked
  have hlt : ranked.indexOf origIdx < ranked.length := List.indexOf_lt_length.mpr h
  rw [List.getD_eq_getElem _ _ (by simpa using hlt)]
  rw [List.getElem_map, List.getElem_indexOf hlt]

theorem teamsRanked_length (s : SetlistSolver) (ranked : List Nat) :
    (teamsRanked s ranked).length = ranked.length := by
  unfold teamsRanked
  rw [List.length_map]

theorem teamsRanked_perm (s : SetlistSolver) (hs : s.teamCount = s.teams.length) :
    (teamsRanked s (rankedIndices s)).Perm s.teams := by
  unfold teamsRanked
  have h1 := (rankedIndices_perm s).map (fun i => s.teams.getD i "")
  rw [hs, map_getD_range] at h1
  exact h1

/-! ### Candidate-set lemmas -/

theorem allowedMask_testBit_base (adj_r : List Nat) (n : Nat) (eN : Option Nat)
    (path : List Nat) (used : Nat) (c : Nat)
    (h : (allowedMask adj_r n eN path used).testBit c = true) :
    (andNot (adj_r.getD (path.getLast?.getD 0) 0) used).testBit c = true := by
  cases eN with
  | none => exact h
  | some e =>
    simp only [allowedMask] at h
    by_cases h1 : path.length = n - 1
    · rw [if_pos h1] at h
      by_cases h2 : (andNot (adj_r.getD (path.getLast?.getD 0) 0) used).testBit e = true
      · rw [if_pos h2, testBit_one_shiftLeft] at h
        have he : e = c := of_decide_eq_true h
        rw [← he]
        exact h2
      · rw [if_neg h2, Nat.zero_testBit] at h
        exact absurd h (by simp)
    · rw [if_neg h1] at h
      by_cases h2 : path.length < n - 1
      · rw [if_pos h2, andNot_testBit] at h
        simp only [Bool.and_eq_true] at h
        exact h.1
      · rwa [if_neg h2] at h

theorem mem_candidatesAt_base (adj_r : List Nat) (n : Nat) (sN eN : Option Nat)
    (path : List Nat) (used : Nat) (hpos : ¬ path.length = 0) :
    ∀ c ∈ candidatesAt adj_r n sN eN path used,
      (andNot (adj_r.getD (path.getLast?.getD 0) 0) used).testBit c = true := by
  intro c hc
  unfold candidatesAt at hc
  rw [if_neg hpos] at hc
  have hc2 := ((List.perm_insertionSort _ _).mem_iff).mp hc
  rw [mem_bitIndices] at hc2
  exact allowedMask_testBit_base adj_r n eN path used c hc2

theorem mem_candidatesAt_lt (adj_r : List Nat) (n : Nat) (sN eN : Option Nat)
    (path : List Nat) (used : Nat)
    (hadj : ∀ i c, ((adj_r.getD i 0).testBit c = true) → c < n)
    (hsN : ∀ st, sN = some st → st < n) :
    ∀ c ∈ candidatesAt adj_r n sN eN path used, c < n := by
  intro c hc
  by_cases hpos : path.length = 0
  · unfold candidatesAt at hc
    rw [if_pos hpos] at hc
    cases sN with
    | some st =>
      have hcst : c = st := by simpa using hc
      rw [hcst]
      exact hsN st rfl
    | none => exact List.mem_range.mp hc
  · have h := mem_candidatesAt_base adj_r n sN eN path used hpos c hc
    rw [andNot_testBit] at h
    simp only [Bool.and_eq_true] at h
    exact hadj _ _ h.1

/-! ### Soundness of the backtracking search -/

theorem finishCheck_sound (eN : Option Nat) (path : List Nat) (p : List Nat)
    (hp : p ∈ finishCheck eN path) :
    p = path ∧ (∀ en, eN = some en → p.getLast? = some en) := by
  cases eN with
  | none =>
    simp only [finishCheck] at hp
    have hpp : p = path := by simpa using hp
    exact ⟨hpp, fun en h => by cases h⟩
  | some e =>
    simp only [finishCheck] at hp
    by_cases he : path.getLast? = some e
    · rw [if_pos he] at hp
      have hpp : p = path := by simpa using hp
      refine ⟨hpp, fun en h => ?_⟩
      injection h with h
      rw [hpp, ← h]
      exact he
    · rw [if_neg he] at hp
      exact absurd hp (by simp)

theorem solveAux_sound (adj_r : List Nat) (n : Nat) (sN eN : Option Nat)
    (hadj : ∀ i c, ((adj_r.getD i 0).testBit c = true) → c < n)
    (hsN : ∀ st, sN = some st → st < n) :
    ∀ (fuel : Nat) (path : List Nat) (used : Nat),
      path.Nodup → (∀ c, used.testBit c = true ↔ c ∈ path) → (∀ c ∈ path, c < n) →
      ∀ p ∈ solveAux adj_r n sN eN fuel path used,
        p.length = n ∧ p.Nodup ∧ (∀ c ∈ p, c < n) ∧ (∃ t, p = path ++ t) ∧
          (∀ en, eN = some en → p.getLast? = some en) := by
  intro fuel
  induction fuel with
  | zero =>
    intro path used hnd hbits hlt p hp
    unfold solveAux at hp
    by_cases hL : path.length = n
    · rw [if_pos hL] at hp
      obtain ⟨hpp, hend⟩ := finishCheck_sound eN path p hp
      exact ⟨by rw [hpp, hL], by rw [hpp]; exact hnd, by rw [hpp]; exact hlt,
        ⟨[], by rw [hpp, List.append_nil]⟩, hend⟩
    · rw [if_neg hL] at hp
      exact absurd hp (by simp)
  | succ fuel ih =>
    intro path used hnd hbits hlt p hp
    unfold solveAux at hp
    by_cases hL : path.length = n
    · rw [if_pos hL] at hp
      obtain ⟨hpp, hend⟩ := finishCheck_sound eN path p hp
      exact ⟨by rw [hpp, hL], by rw [hpp]; exact hnd, by rw [hpp]; exact hlt,
        ⟨[], by rw [hpp, List.append_nil]⟩, hend⟩
    · rw [if_neg hL] at hp
      rw [List.mem_flatMap] at hp
      obtain ⟨c, hcmem, hp⟩ := hp
      by_cases hused : used.testBit c = true
      · rw [if_pos hused] at hp
        exact absurd hp (by simp)
      · rw [if_neg hused] at hp
        have hcn : c < n := mem_candidatesAt_lt adj_r n sN eN path used hadj hsN c hcmem
        have hcnotin : c ∉ path := fun hmem => hused ((hbits c).mpr hmem)
        have hnd' : (path ++ [c]).Nodup := by
          rw [List.nodup_append]
          refine ⟨hnd, List.nodup_singleton c, ?_⟩
          intro a ha hb
          rw [List.mem_singleton] at hb
          rw [hb] at ha
          exact hcnotin ha
        have hbits' : ∀ d, (used ||| (1 <<< c)).testBit d = true ↔ d ∈ path ++ [c] := by
          intro d
          rw [Nat.testBit_lor, testBit_one_shiftLeft, List.mem_append, List.mem_singleton]
          simp only [Bool.or_eq_true, decide_eq_true_eq]
          rw [hbits d]
          constructor
          · rintro (h | h)
            · exact Or.inl h
            · exact Or.inr h.symm
          · rintro (h | h)
            · exact Or.inl h
            · exact Or.inr h.symm
        have hlt' : ∀ d ∈ path ++ [c], d < n := by
          intro d hd
          rcases List.mem_append.mp hd with hd | hd
          · exact hlt d hd
          · rw [List.mem_singleton.mp hd]
            exact hcn
        obtain ⟨hlen, hae, hbound, ⟨t, ht⟩, hend⟩ :=
          ih (path ++ [c]) (used ||| (1 <<< c)) hnd' hbits' hlt' p hp
        refine ⟨hlen, hae, hbound, ⟨c :: t, ?_⟩, hend⟩
        rw [ht, List.append_assoc]
        rfl

theorem backtrackWithEnd_sound (s : SetlistSolver) (adj_r : List Nat) (sN eN : Option Nat)
    (hadj : ∀ i c, ((adj_r.getD i 0).testBit c = true) → c < s.teamCount)
    (hsN : ∀ st, sN = some st → st < s.teamCount) :
    ∀ p ∈ backtrackWithEnd s adj_r sN eN,
      p.length = s.teamCount ∧ p.Nodup ∧ (∀ c ∈ p, c < s.teamCount) ∧
        (∀ en, eN = some en → p.getLast? = some en) := by
  intro p hp
  unfold backtrackWithEnd at hp
  obtain ⟨h1, h2, h3, -, h5⟩ :=
    solveAux_sound adj_r s.teamCount sN eN hadj hsN s.teamCount [] 0
      List.nodup_nil (by simp) (by simp) p hp
  exact ⟨h1, h2, h3, h5⟩

theorem backtrackWithEnd_head (s : SetlistSolver) (adj_r : List Nat) (r : Nat) (eN : Option Nat)
    (hadj : ∀ i c, ((adj_r.getD i 0).testBit c = true) → c < s.teamCount)
    (hr : r < s.teamCount) :
    ∀ p ∈ backtrackWithEnd s adj_r (some r) eN, p.head? = some r := by
  intro p hp
  unfold backtrackWithEnd at hp
  have hn0 : s.teamCount ≠ 0 := by omega
  obtain ⟨m, hm⟩ : ∃ m, s.teamCount = m + 1 := ⟨s.teamCount - 1, by omega⟩
  rw [hm] at hp hadj hr
  have hcand : candidatesAt adj_r (m + 1) (some r) eN [] 0 = [r] := by
    simp [candidatesAt]
  have hstep : solveAux adj_r (m + 1) (some r) eN (m + 1) [] 0
      = (candidatesAt adj_r (m + 1) (some r) eN [] 0).flatMap
          (fun c =>
            if (0 : Nat).testBit c then []
            else solveAux adj_r (m + 1) (some r) eN m [c] (0 ||| (1 <<< c))) := by
    simp only [solveAux]
    rw [if_neg (by simp)]
    simp only [List.nil_append]
  rw [hstep, hcand] at hp
  rw [List.mem_flatMap] at hp
  obtain ⟨c, hcmem, hp⟩ := hp
  have hcr : c = r := by simpa using hcmem
  rw [hcr] at hp
  rw [if_neg (by simp [Nat.zero_testBit])] at hp
  obtain ⟨-, -, -, ⟨t, ht⟩, -⟩ :=
    solveAux_sound adj_r (m + 1) (some r) eN hadj
      (fun st h => by injection h with h; omega) m [r] (0 ||| (1 <<< r))
      (List.nodup_singleton r)
      (by
        intro d
        rw [Nat.testBit_lor, testBit_one_shiftLeft]
        simp [eq_comm])
      (by
        intro d hd
        rw [List.mem_singleton.mp hd]
        omega)
      p hp
  rw [ht]
  rfl

/-! ### Emission-loop lemmas -/

theorem emitLoop_valid (s : SetlistSolver) (teams_r : List String) :
    ∀ (paths : List (List Nat)) (limit : Option Nat) (produced : Nat),
      ∀ seq ∈ emitLoop s teams_r paths limit produced, (sequenceIsValid s seq).1 = true := by
  intro paths
  induction paths with
  | nil => intro limit produced seq h; simp [emitLoop] at h
  | cons pIdx rest ih =>
    intro limit produced seq h
    simp only [emitLoop] at h
    by_cases hlim : limitReached limit produced = true
    · rw [if_pos hlim] at h
      exact absurd h (by simp)
    · rw [if_neg hlim] at h
      by_cases hval : (sequenceIsValid s (pIdx.map (fun i => teams_r.getD i ""))).1 = true
      · rw [if_pos hval] at h
        rcases List.mem_cons.mp h with h | h
        · rw [h]; exact hval
        · exact ih _ _ seq h
      · rw [if_neg hval] at h
        exact ih _ _ seq h

theorem emitLoop_mem (s : SetlistSolver) (teams_r : List String) :
    ∀ (paths : List (List Nat)) (limit : Option Nat) (produced : Nat),
      ∀ seq ∈ emitLoop s teams_r paths limit produced,
        ∃ p ∈ paths, seq = p.map (fun i => teams_r.getD i "") := by
  intro paths
  induction paths with
  | nil => intro limit produced seq h; simp [emitLoop] at h
  | cons pIdx rest ih =>
    intro limit produced seq h
    simp only [emitLoop] at h
    by_cases hlim : limitReached limit produced = true
    · rw [if_pos hlim] at h
      exact absurd h (by simp)
    · rw [if_neg hlim] at h
      by_cases hval : (sequenceIsValid s (pIdx.map (fun i => teams_r.getD i ""))).1 = true
      · rw [if_pos hval] at h
        rcases List.mem_cons.mp h with h | h
        · exact ⟨pIdx, List.mem_cons_self _ _, h⟩
        · obtain ⟨p, hpmem, hpeq⟩ := ih _ _ seq h
          exact ⟨p, List.mem_cons_of_mem _ hpmem, hpeq⟩
      · rw [if_neg hval] at h
        obtain ⟨p, hpmem, hpeq⟩ := ih _ _ seq h
        exact ⟨p, List.mem_cons_of_mem _ hpmem, hpeq⟩

theorem emitLoop_take (s : SetlistSolver) (teams_r : List String) :
    ∀ (paths : List (List Nat)) (k produced : Nat),
      emitLoop s teams_r paths (some k) produced
        = (emitLoop s teams_r paths none produced).take (k - produced) := by
  intro paths
  induction paths with
  | nil => intro k produced; simp [emitLoop]
  | cons pIdx rest ih =>
    intro k produced
    simp only [emitLoop]
    by_cases hk : k ≤ produced
    · have h1 : limitReached (some k) produced = true := by simp [limitReached, hk]
      rw [if_pos h1, Nat.sub_eq_zero_of_le hk, List.take_zero]
    · have h1 : ¬ (limitReached (some k) produced = true) := by simp [limitReached, hk]
      have h2 : ¬ (limitReached none produced = true) := by simp [limitReached]
      rw [if_neg h1, if_neg h2]
      by_cases hval : (sequenceIsValid s (pIdx.map (fun i => teams_r.getD i ""))).1 = true
      · rw [if_pos hval, ih k (produced + 1), if_pos hval]
        have hkp : k - produced = (k - (produced + 1)) + 1 := by omega
        rw [hkp, List.take_succ_cons]
      · rw [if_neg hval, ih k produced, if_neg hval]

/-! ### Unfolding the generator wrapper -/

theorem contains_true_iff_mem {α : Type} [BEq α] [LawfulBEq α] (l : List α) (a : α) :
    l.contains a = true ↔ a ∈ l := by
  simp [List.contains, List.elem_iff]

theorem not_mem_contains_false {α : Type} [BEq α] [LawfulBEq α] {l : List α} {a : α}
    (h : ¬ a ∈ l) : l.contains a = false := by
  cases hc : l.contains a with
  | false => rfl
  | true => exact absurd ((contains_true_iff_mem _ _).mp hc) h

theorem generate_eq_ok {s : SetlistSolver} {limit : Option Nat} {st en : Option String}
    {out : List (List String)}
    (h : generate_valid_setlists s limit st en = Except.ok out) :
    (isTruthy st && !(s.teams.contains (st.getD ""))) = false ∧
    (isTruthy en && !(s.teams.contains (en.getD ""))) = false ∧
    out = emitLoop s (teamsRanked s (rankedIndices s))
      (backtrackWithEnd s (adjRanked s (rankedIndices s))
        (if isTruthy st then some ((rankedIndices s).indexOf (s.teams.indexOf (st.getD "")))
         else none)
        (if isTruthy en then some ((rankedIndices s).indexOf (s.teams.indexOf (en.getD "")))
         else none))
      limit 0 := by
  unfold generate_valid_setlists at h
  by_cases h1 : (isTruthy st && !(s.teams.contains (st.getD ""))) = true
  · rw [if_pos h1] at h
    exact absurd h (by simp)
  · rw [if_neg h1] at h
    by_cases h2 : (isTruthy en && !(s.teams.contains (en.getD ""))) = true
    · rw [if_pos h2] at h
      exact absurd h (by simp)
    · rw [if_neg h2] at h
      refine ⟨by simpa using h1, by simpa using h2, ?_⟩
      injection h with h
      exact h.symm

/-- If the endpoint check passed, the translated ranked endpoint index is
in range. -/
theorem nodeR_lt (s : SetlistSolver) (t : Option String)
    (hchk : (isTruthy t && !(s.teams.contains (t.getD ""))) = false)
    (hcnt : s.teamCount = s.teams.length) :
    ∀ v, (if isTruthy t then some ((rankedIndices s).indexOf (s.teams.indexOf (t.getD "")))
          else none) = some v → v < s.teamCount := by
  intro v hv
  by_cases htr : isTruthy t = true
  · rw [if_pos htr] at hv
    injection hv with hv
    rw [← hv]
    apply rankedIndices_indexOf_lt
    rw [hcnt]
    apply List.indexOf_lt_length.mpr
    rw [htr] at hchk
    simp only [Bool.true_and, Bool.not_eq_false'] at hchk
    exact (contains_true_iff_mem _ _).mp hchk
  · rw [if_neg htr] at hv
    cases hv

/-! ### Claim theorems -/

/-- C1: every setlist emitted by `generate_valid_setlists` is valid — it
passes the validator `_sequence_is_valid` (no two consecutive teams share a
member), and any candidate failing the check is dropped from the output;
this holds for every solver state and every limit/start/end combination. -/
theorem c1_every_emitted_setlist_valid (s : SetlistSolver) (limit : Option Nat)
    (st en : Option String) (out : List (List String))
    (h : generate_valid_setlists s limit st en = Except.ok out) :
    ∀ seq ∈ out, (sequenceIsValid s seq).1 = true := by
  obtain ⟨-, -, hout⟩ := generate_eq_ok h
  rw [hout]
  exact emitLoop_valid s _ _ limit 0

/-- Witness for C1 at the spec's three-team example. -/
theorem c1_witness :
    generate_valid_setlists exSolver none none none
      = Except.ok [["a", "b", "c"], ["c", "b", "a"]] ∧
    (sequenceIsValid exSolver ["a", "b", "c"]).1 = true :=
  ⟨by decide,
    c1_every_emitted_setlist_valid exSolver none none none [["a", "b", "c"], ["c", "b", "a"]]
      (by decide) ["a", "b", "c"] (by decide)⟩

/-- C4: with `limit = k` the generator yields at most `k` setlists, and
those are exactly the first `k` of the unlimited sequence, in the same
order, for every solver state and every start/end choice (errors are
unaffected by the limit). -/
theorem c4_cap_correctness (s : SetlistSolver) (k : Nat) (st en : Option String) :
    generate_valid_setlists s (some k) st en
      = Except.map (fun l => l.take k) (generate_valid_setlists s none st en) ∧
    (∀ out, generate_valid_setlists s (some k) st en = Except.ok out → out.length ≤ k) := by
  constructor
  · unfold generate_valid_setlists
    by_cases h1 : (isTruthy st && !(s.teams.contains (st.getD ""))) = true
    · rw [if_pos h1, if_pos h1]
      rfl
    · rw [if_neg h1, if_neg h1]
      by_cases h2 : (isTruthy en && !(s.teams.contains (en.getD ""))) = true
      · rw [if_pos h2, if_pos h2]
        rfl
      · rw [if_neg h2, if_neg h2]
        show Except.ok _ = Except.map _ (Except.ok _)
        rw [Except.map]
        rw [emitLoop_take]
        rfl
  · intro out h
    obtain ⟨-, -, hout⟩ := generate_eq_ok h
    rw [hout, emitLoop_take]
    calc (List.take (k - 0) _).length ≤ k - 0 := List.length_take_le _ _
      _ ≤ k := by omega

/-- Witness for C4 at the spec's three-team example with `k = 1`. -/
theorem c4_witness :
    generate_valid_setlists exSolver (some 1) none none
      = Except.map (fun l => l.take 1) (generate_valid_setlists exSolver none none none) ∧
    ([["a", "b", "c"]] : List (List String)).length ≤ 1 :=
  ⟨(c4_cap_correctness exSolver 1 none none).1,
    (c4_cap_correctness exSolver 1 none none).2 [["a", "b", "c"]] (by decide)⟩

/-- C5: the adjacency relation built by `_build_compatibility_graph` is
irreflexive (bit `i` of mask `i` is never set) and symmetric (for distinct
in-range `i`, `j`, bit `j` of mask `i` equals bit `i` of mask `j`). -/
theorem c5_adjacency_symmetric_irreflexive (input : List (String × List String))
    (s : SetlistSolver) (hmk : mkSolver input = Except.ok s) :
    ∀ i j, i < s.teamCount → j < s.teamCount →
      ((s.adjacencyMasks.getD i 0).testBit i = false ∧
        (i ≠ j →
          (s.adjacencyMasks.getD i 0).testBit j = (s.adjacencyMasks.getD j 0).testBit i)) := by
  obtain ⟨hm1, hm2, hm3, hm4, -⟩ := mkSolver_ok hmk
  have httm : s.teams = s.teamsToMembers.map Prod.fst := by
    rw [hm1, hm2, List.map_map]
    rfl
  have hgetD : ∀ m, m < s.teamCount →
      s.adjacencyMasks.getD m 0 = rowMask s.teamsToMembers s.teams m := by
    intro m hm
    rw [hm4]
    have := buildCompatibilityGraph_getD s.teamsToMembers m
      (by rw [← httm, ← hm3]; exact hm)
    rw [this, ← httm]
  intro i j hi hj
  constructor
  · rw [hgetD i hi]
    cases hb : (rowMask s.teamsToMembers s.teams i).testBit i with
    | false => rfl
    | true =>
      obtain ⟨-, hne, -⟩ := (rowMask_testBit s.teamsToMembers s.teams i i).mp hb
      exact absurd rfl hne
  · intro hij
    rw [hgetD i hi, hgetD j hj, Bool.eq_iff_iff, rowMask_testBit, rowMask_testBit]
    constructor
    · rintro ⟨-, -, hdis⟩
      refine ⟨by rw [← hm3]; exact hi, Ne.symm hij, ?_⟩
      rw [disjointB_comm]
      exact hdis
    · rintro ⟨-, -, hdis⟩
      refine ⟨by rw [← hm3]; exact hj, hij, ?_⟩
      rw [disjointB_comm]
      exact hdis

/-- Witness for C5 at the spec's three-team example, indices 0 and 1. -/
theorem c5_witness :
    (exSolver.adjacencyMasks.getD 0 0).testBit 0 = false ∧
    (exSolver.adjacencyMasks.getD 0 0).testBit 1 = (exSolver.adjacencyMasks.getD 1 0).testBit 0 := by
  have h := c5_adjacency_symmetric_irreflexive exInput exSolver (by decide) 0 1
    (by decide) (by decide)
  exact ⟨h.1, h.2 (by decide)⟩

/-- C7: the generator is deterministic — on the same constructed solver
state (same input mapping, graph unchanged) two calls with identical
arguments return identical sequences, element for element and in order. -/
theorem c7_determinism (input : List (String × List String)) (limit : Option Nat)
    (st en : Option String) (s1 s2 : SetlistSolver)
    (h1 : mkSolver input = Except.ok s1) (h2 : mkSolver input = Except.ok s2) :
    generate_valid_setlists s1 limit st en = generate_valid_setlists s2 limit st en := by
  rw [h1] at h2
  injection h2 with h2
  rw [h2]

/-- Witness for C7 at the spec's three-team example. -/
theorem c7_witness :
    generate_valid_setlists exSolver none none none
      = generate_valid_setlists exSolver none none none :=
  c7_determinism exInput none none none exSolver exSolver (by decide) (by decide)

/-- C8: on the mapping `a:{x}`, `b:{y}`, `c:{x}` the generator with no
constraints yields exactly `[a,b,c]` and `[c,b,a]` and nothing else, and
with `start="a"` it yields exactly `[a,b,c]`. -/
theorem c8_concrete_scenario :
    mkSolver exInput = Except.ok exSolver ∧
    generate_valid_setlists exSolver none none none
      = Except.ok [["a", "b", "c"], ["c", "b", "a"]] ∧
    generate_valid_setlists exSolver none (some "a") none = Except.ok [["a", "b", "c"]] :=
  ⟨by decide, by decide, by decide⟩

/-- C9: with an end constraint, at depths `0 < L < n-1` the candidate set
is exactly the set bits of `adj_r[last] AND NOT used` with the end index
removed, and at depth `L = n-1` it collapses to `[end]` when the end bit is
set in the unreserved base mask and to `[]` otherwise. -/
theorem c9_end_reservation (adj_r : List Nat) (n : Nat) (sN : Option Nat) (e : Nat)
    (path : List Nat) (used : Nat) (hpos : 0 < path.length) :
    (path.length < n - 1 →
      ∀ c, c ∈ candidatesAt adj_r n sN (some e) path used ↔
        ((andNot (adj_r.getD (path.getLast?.getD 0) 0) used).testBit c = true ∧ c ≠ e)) ∧
    (path.length = n - 1 →
      candidatesAt adj_r n sN (some e) path used
        = (if (andNot (adj_r.getD (path.getLast?.getD 0) 0) used).testBit e = true
           then [e] else [])) := by
  constructor
  · intro hL c
    unfold candidatesAt
    rw [if_neg (by omega)]
    rw [(List.perm_insertionSort _ _).mem_iff, mem_bitIndices]
    simp only [allowedMask]
    rw [if_neg (by omega), if_pos hL, andNot_testBit, testBit_one_shiftLeft]
    simp only [Bool.and_eq_true, Bool.not_eq_true', decide_eq_false_iff_not]
    constructor
    · rintro ⟨hb, hne⟩
      exact ⟨hb, fun hce => hne hce.symm⟩
    · rintro ⟨hb, hne⟩
      exact ⟨hb, fun hec => hne hec.symm⟩
  · intro hL
    unfold candidatesAt
    rw [if_neg (by omega)]
    simp only [allowedMask]
    rw [if_pos hL]
    by_cases hb : (andNot (adj_r.getD (path.getLast?.getD 0) 0) used).testBit e = true
    · rw [if_pos hb, if_pos hb, bitIndices_one_shiftLeft]
      simp [List.insertionSort, List.orderedInsert]
    · rw [if_neg hb, if_neg hb, bitIndices_zero]
      rfl

/-- Witness for C9 on the ranked three-team graph `[4, 4, 3]`. -/
theorem c9_witness :
    (0 ∉ candidatesAt [4, 4, 3] 3 none (some 0) [2] 4) ∧
    candidatesAt [4, 4, 3] 3 none (some 0) [2, 1] 6 = [] := by
  constructor
  · intro hmem
    have h := (c9_end_reservation [4, 4, 3] 3 none 0 [2] 4 (by decide)).1 (by decide) 0
    exact (h.mp hmem).2 rfl
  · have h := (c9_end_reservation [4, 4, 3] 3 none 0 [2, 1] 6 (by decide)).2 (by decide)
    rw [h]
    decide

/-- C10: an empty-string start or end argument does not raise and behaves
exactly as if the constraint were absent, whatever the solver state — even
when the empty string is, or is not, a team name. -/
theorem c10_empty_string_is_no_constraint (s : SetlistSolver) (limit : Option Nat) :
    (∀ en, generate_valid_setlists s limit (some "") en
        = generate_valid_setlists s limit none en) ∧
    (∀ st, generate_valid_setlists s limit st (some "")
        = generate_valid_setlists s limit st none) ∧
    (∃ out, generate_valid_setlists s limit (some "") (some "") = Except.ok out) :=
  ⟨fun _ => rfl, fun _ => rfl, ⟨_, rfl⟩⟩

/-- C3 fails as stated: the empty string is a possible team name; when it
is passed as `start_team`, Python truthiness skips the endpoint check and
the constraint, and setlists not starting with it are emitted. -/
theorem c3_counterexample :
    mkSolver cexInput = Except.ok cexSolver ∧
    generate_valid_setlists cexSolver none (some "") none
      = Except.ok [["", "b"], ["b", ""]] ∧
    ["b", ""] ∈ [["", "b"], ["b", ""]] ∧
    ¬ (["b", ""].head? = some "") :=
  ⟨by decide, by decide, by decide, by decide⟩

/-- C3 (amended): if a non-empty start team is given, every emitted
setlist's first element equals it; if a non-empty end team is given, every
emitted setlist's last element equals it. -/
theorem c3_endpoint_enforcement (input : List (String × List String)) (s : SetlistSolver)
    (limit : Option Nat) (st en : Option String) (out : List (List String))
    (hmk : mkSolver input = Except.ok s)
    (h : generate_valid_setlists s limit st en = Except.ok out) :
    (∀ stName, st = some stName → stName ≠ "" →
      ∀ seq ∈ out, seq.head? = some stName) ∧
    (∀ enName, en = some enName → enName ≠ "" →
      ∀ seq ∈ out, seq.getLast? = some enName) := by
  obtain ⟨-, -, hm3, -, -⟩ := mkSolver_ok hmk
  obtain ⟨hchk1, hchk2, hout⟩ := generate_eq_ok h
  have hr : ∀ j, j < s.teamCount → (rankedIndices s).indexOf j < s.teamCount :=
    fun j hj => rankedIndices_indexOf_lt s j hj
  have hadj := adjRanked_testBit_lt s (rankedIndices s) hr
  constructor
  · intro stName hst hne seq hseq
    subst hst
    have htr : isTruthy (some stName) = true := by simp [isTruthy, hne]
    simp only [htr, Option.getD_some, Bool.true_and, Bool.not_eq_false'] at hchk1
    have hmem : stName ∈ s.teams := (contains_true_iff_mem _ _).mp hchk1
    have horig : s.teams.indexOf stName < s.teamCount := by
      rw [hm3]
      exact List.indexOf_lt_length.mpr hmem
    rw [hout, if_pos htr] at hseq
    simp only [Option.getD_some] at hseq
    obtain ⟨p, hpmem, hpeq⟩ := emitLoop_mem s _ _ limit 0 seq hseq
    have hhead := backtrackWithEnd_head s (adjRanked s (rankedIndices s))
      ((rankedIndices s).indexOf (s.teams.indexOf stName)) _ hadj
      (rankedIndices_indexOf_lt s _ horig) p hpmem
    have hname : (teamsRanked s (rankedIndices s)).getD
        ((rankedIndices s).indexOf (s.teams.indexOf stName)) "" = stName := by
      rw [teamsRanked_getD_indexOf s (rankedIndices s) (s.teams.indexOf stName)
        ((mem_rankedIndices s _).mpr horig)]
      exact getD_indexOf s.teams stName "" hmem
    rw [hpeq, List.head?_map, hhead, Option.map_some', hname]
  · intro enName hen hne seq hseq
    subst hen
    have htr : isTruthy (some enName) = true := by simp [isTruthy, hne]
    simp only [htr, Option.getD_some, Bool.true_and, Bool.not_eq_false'] at hchk2
    have hmem : enName ∈ s.teams := (contains_true_iff_mem _ _).mp hchk2
    have horig : s.teams.indexOf enName < s.teamCount := by
      rw [hm3]
      exact List.indexOf_lt_length.mpr hmem
    rw [hout, if_pos htr] at hseq
    simp only [Option.getD_some] at hseq
    obtain ⟨p, hpmem, hpeq⟩ := emitLoop_mem s _ _ limit 0 seq hseq
    obtain ⟨-, -, -, hend⟩ := backtrackWithEnd_sound s (adjRanked s (rankedIndices s)) _ _
      hadj (nodeR_lt s st hchk1 hm3) p hpmem
    have hlast := hend _ rfl
    have hname : (teamsRanked s (rankedIndices s)).getD
        ((rankedIndices s).indexOf (s.teams.indexOf enName)) "" = enName := by
      rw [teamsRanked_getD_indexOf s (rankedIndices s) (s.teams.indexOf enName)
        ((mem_rankedIndices s _).mpr horig)]
      exact getD_indexOf s.teams enName "" hmem
    rw [hpeq, List.getLast?_map, hlast, Option.map_some', hname]

/-- C2: every emitted setlist has length `n` and is a permutation of the
team list: each team appears exactly once, with no repeats and no
omissions. -/
theorem c2_permutation_completeness (input : List (String × List String)) (s : SetlistSolver)
    (limit : Option Nat) (st en : Option String) (out : List (List String))
    (hmk : mkSolver input = Except.ok s)
    (h : generate_valid_setlists s limit st en = Except.ok out) :
    ∀ seq ∈ out, seq.length = s.teamCount ∧ seq.Perm s.teams ∧
      ((input.map Prod.fst).Nodup → ∀ t ∈ s.teams, seq.count t = 1) := by
  obtain ⟨-, hm2, hm3, -, -⟩ := mkSolver_ok hmk
  obtain ⟨hchk1, -, hout⟩ := generate_eq_ok h
  have hr : ∀ j, j < s.teamCount → (rankedIndices s).indexOf j < s.teamCount :=
    fun j hj => rankedIndices_indexOf_lt s j hj
  have hadj := adjRanked_testBit_lt s (rankedIndices s) hr
  intro seq hseq
  rw [hout] at hseq
  obtain ⟨p, hpmem, hpeq⟩ := emitLoop_mem s _ _ limit 0 seq hseq
  obtain ⟨hlen, hnd, hbound, -⟩ := backtrackWithEnd_sound s (adjRanked s (rankedIndices s)) _ _
    hadj (nodeR_lt s st hchk1 hm3) p hpmem
  have hsub : p.toFinset ⊆ Finset.range s.teamCount := by
    intro x hx
    rw [Finset.mem_range]
    exact hbound x (List.mem_toFinset.mp hx)
  have hcard : p.toFinset.card = s.teamCount := by
    rw [List.toFinset_card_of_nodup hnd, hlen]
  have hfin : p.toFinset = Finset.range s.teamCount :=
    Finset.eq_of_subset_of_card_le hsub (by rw [hcard, Finset.card_range])
  have hfr : (List.range s.teamCount).toFinset = Finset.range s.teamCount := by
    ext x
    rw [List.mem_toFinset, List.mem_range, Finset.mem_range]
  have hperm : p.Perm (List.range s.teamCount) :=
    List.perm_of_nodup_nodup_toFinset_eq hnd (List.nodup_range _) (hfin.trans hfr.symm)
  have hlenTR : (teamsRanked s (rankedIndices s)).length = s.teamCount := by
    rw [teamsRanked_length, rankedIndices_length]
  have hmapTR : (List.range s.teamCount).map
      (fun i => (teamsRanked s (rankedIndices s)).getD i "")
      = teamsRanked s (rankedIndices s) := by
    conv_lhs => rw [← hlenTR]
    exact map_getD_range _ ""
  have hseqperm : seq.Perm s.teams := by
    rw [hpeq]
    have h1 := hperm.map (fun i => (teamsRanked s (rankedIndices s)).getD i "")
    rw [hmapTR] at h1
    exact h1.trans (teamsRanked_perm s hm3)
  refine ⟨by rw [hpeq, List.length_map, hlen], hseqperm, ?_⟩
  intro hnodup t ht
  have hteamsnd : s.teams.Nodup := by rw [hm2]; exact hnodup
  rw [hseqperm.count_eq]
  exact List.count_eq_one_of_mem hteamsnd ht

/-- Witness for C2 at the spec's three-team example. -/
theorem c2_witness :
    (["a", "b", "c"] : List String).length = exSolver.teamCount ∧
    List.Perm ["a", "b", "c"] exSolver.teams ∧
    (["a", "b", "c"] : List String).count "a" = 1 := by
  have h := c2_permutation_completeness exInput exSolver none none none
    [["a", "b", "c"], ["c", "b", "a"]] (by decide) (by decide) ["a", "b", "c"] (by decide)
  exact ⟨h.1, h.2.1, h.2.2 (by decide) "a" (by decide)⟩

/-- C6 fails as stated: passing the empty string as `start_team` — given,
and not a key of the one-team mapping — does not raise; the call returns
its normal output. -/
theorem c6_counterexample :
    mkSolver oneInput = Except.ok oneSolver ∧
    generate_valid_setlists oneSolver none (some "") none = Except.ok [["a"]] :=
  ⟨by decide, by decide⟩

/-- C6 (amended): constructing from an empty mapping errors; the generator
errors before search iff a given non-empty start or end team name is not a
key of the team mapping; otherwise it never raises while being consumed. -/
theorem c6_error_contract :
    mkSolver ([] : List (String × List String))
      = Except.error "Input teams_to_members cannot be empty." ∧
    ∀ (s : SetlistSolver) (limit : Option Nat) (st en : Option String),
      (∃ msg, generate_valid_setlists s limit st en = Except.error msg) ↔
        ((isTruthy st = true ∧ ¬ st.getD "" ∈ s.teams) ∨
         (isTruthy en = true ∧ ¬ en.getD "" ∈ s.teams)) := by
  refine ⟨rfl, ?_⟩
  intro s limit st en
  constructor
  · rintro ⟨msg, hmsg⟩
    unfold generate_valid_setlists at hmsg
    by_cases h1 : (isTruthy st && !(s.teams.contains (st.getD ""))) = true
    · simp only [Bool.and_eq_true, Bool.not_eq_true'] at h1
      left
      refine ⟨h1.1, fun hmem => ?_⟩
      have hc := (contains_true_iff_mem s.teams (st.getD "")).mpr hmem
      rw [hc] at h1
      exact Bool.noConfusion h1.2
    · rw [if_neg h1] at hmsg
      by_cases h2 : (isTruthy en && !(s.teams.contains (en.getD ""))) = true
      · simp only [Bool.and_eq_true, Bool.not_eq_true'] at h2
        right
        refine ⟨h2.1, fun hmem => ?_⟩
        have hc := (contains_true_iff_mem s.teams (en.getD "")).mpr hmem
        rw [hc] at h2
        exact Bool.noConfusion h2.2
      · rw [if_neg h2] at hmsg
        exact absurd hmsg (by simp)
  · intro hcond
    by_cases h1 : (isTruthy st && !(s.teams.contains (st.getD ""))) = true
    · exact ⟨"Start team not found.", by unfold generate_valid_setlists; rw [if_pos h1]⟩
    · have h2 : (isTruthy en && !(s.teams.contains (en.getD ""))) = true := by
        rcases hcond with ⟨ht, hmem⟩ | ⟨ht, hmem⟩
        · exact absurd (by rw [ht, not_mem_contains_false hmem]; rfl) h1
        · rw [ht, not_mem_contains_false hmem]
          rfl
      exact ⟨"End team not found.",
        by unfold generate_valid_setlists; rw [if_neg h1, if_pos h2]⟩

/-- Witness for C6: an unknown non-empty start name errors at the
three-team example. -/
theorem c6_witness :
    ∃ msg, generate_valid_setlists exSolver none (some "zzz") none = Except.error msg :=
  (c6_error_contract.2 exSolver none (some "zzz") none).mpr
    (Or.inl ⟨by decide, by decide⟩)

/-- Witness for C3 at the spec's three-team example with `start = "a"`. -/
theorem c3_witness :
    generate_valid_setlists exSolver none (some "a") none = Except.ok [["a", "b", "c"]] ∧
    (["a", "b", "c"] : List String).head? = some "a" := by
  have h := c3_endpoint_enforcement exInput exSolver none (some "a") none [["a", "b", "c"]]
    (by decide) (by decide)
  exact ⟨by decide, h.1 "a" rfl (by decide) ["a", "b", "c"] (by decide)⟩

end Mvm
